import Mathlib

/-!
Verification of the spatial-indicator module (`bandicoot/spatial.py`).

The module computes spatial mobility indicators over a user's positions and
interaction records.  Pure functions are embedded directly; floating-point
arithmetic is modelled exactly over `ℚ` (and over `ℝ` where the source takes
square roots or logarithms).  Helpers that live outside the repository's
files (`helper.group`, `helper.tools`) are modelled from the specification
and are marked as such in their doc comments.
-/

/-- A place a record occurred at: a discrete antenna id, or a geocoded
(latitude, longitude) pair, or both, or neither.  Mirrors the opaque
`Position` objects the module receives: it only needs equality/hashing and
optional coordinates. -/
structure Position where
  antenna : Option ℕ
  location : Option (ℚ × ℚ)
deriving DecidableEq, Repr

/-- One interaction event: its position, its interaction type (the module
compares it against the strings held by `sCall` / `sText`), and its call
duration (meaningful for calls only). -/
structure Record where
  position : Position
  interaction : String
  call_duration : ℚ
deriving DecidableEq, Repr

/-- The slice of the user object the module reads: the `has_home` flag and
the inferred `home` position. -/
structure User where
  has_home : Bool
  home : Position
deriving DecidableEq, Repr

/-- The string constant for the call interaction type. -/
def sCall : String := "call"

/-- The string constant for the text interaction type. -/
def sText : String := "text"

/-- The string constant for the call-duration weighting mode. -/
def sCallDuration : String := "call_duration"

/-- Embedding of `percent_at_home(positions, user)`: `None` when the user has
no home, or the home has neither an antenna id nor coordinates; otherwise the
fraction of positions equal to the home, with `0` on an empty sequence. -/
def percent_at_home (positions : List Position) (user : User) : Option ℚ :=
  if user.has_home = false then none
  else if user.home.antenna = none ∧ user.home.location = none then none
  else if positions.length ≠ 0 then
    some ((positions.count user.home : ℚ) / (positions.length : ℚ))
  else some 0

/-- The contract of §4.1 of the specification, stated in its own words:
`undefined` unless a home with an antenna id or coordinates exists, else the
ratio `count(p == home) / total_count`, with the empty sequence mapped to `0`
rather than `undefined`. -/
def percent_at_home_spec (positions : List Position) (user : User) : Option ℚ :=
  if user.has_home = true ∧ (user.home.antenna ≠ none ∨ user.home.location ≠ none) then
    some (if positions = [] then 0
          else (positions.count user.home : ℚ) / (positions.length : ℚ))
  else none

/-- Embedding of the body of `radius_of_gyration` up to (but not including)
the final `math.sqrt`: the accumulated value `r`.  `getLoc` models the
external `Position._get_location(user)` lookup (spec §3: "extraction of a
numeric (lat, lon) pair relative to a user"; its code is outside the
repository's files).  `distF` models the external `great_circle_distance`
(spec §6: symmetric and zero on identical inputs; kept abstract and
rational-valued).  The source accumulates each distinct position's term
twice: `r += (t/W)·d(b,p)²` appears on two consecutive lines. -/
def rog_r (distF : (ℚ × ℚ) → (ℚ × ℚ) → ℚ) (getLoc : Position → Option (ℚ × ℚ))
    (positions : List Position) : Option ℚ :=
  let locs := positions.filterMap getLoc
  let uniq := locs.dedup
  if uniq.length = 0 then none
  else
    let W : ℚ := (uniq.map (fun p => (locs.count p : ℚ))).sum
    let b : ℚ × ℚ := ((uniq.map (fun p => p.1 * (locs.count p : ℚ))).sum / W,
                      (uniq.map (fun p => p.2 * (locs.count p : ℚ))).sum / W)
    some ((uniq.map (fun p =>
      (locs.count p : ℚ) / W * distF b p ^ 2 +
      (locs.count p : ℚ) / W * distF b p ^ 2)).sum)

/-- Modelled from the spec: the value under the square root according to
§4.2, `Σ (count/total) · d(barycenter, position)²`, each distinct position
contributing exactly one term.  Identical to `rog_r` except that the term is
added once. -/
def rog_r_spec (distF : (ℚ × ℚ) → (ℚ × ℚ) → ℚ) (getLoc : Position → Option (ℚ × ℚ))
    (positions : List Position) : Option ℚ :=
  let locs := positions.filterMap getLoc
  let uniq := locs.dedup
  if uniq.length = 0 then none
  else
    let W : ℚ := (uniq.map (fun p => (locs.count p : ℚ))).sum
    let b : ℚ × ℚ := ((uniq.map (fun p => p.1 * (locs.count p : ℚ))).sum / W,
                      (uniq.map (fun p => p.2 * (locs.count p : ℚ))).sum / W)
    some ((uniq.map (fun p => (locs.count p : ℚ) / W * distF b p ^ 2)).sum)

/-- Embedding of the full `radius_of_gyration`: the square root of the
accumulated value. -/
noncomputable def radius_of_gyration (distF : (ℚ × ℚ) → (ℚ × ℚ) → ℚ)
    (getLoc : Position → Option (ℚ × ℚ)) (positions : List Position) : Option ℝ :=
  (rog_r distF getLoc positions).map (fun q => Real.sqrt (q : ℝ))

/-- A concrete stand-in distance for the failing input: symmetric and zero on
identical inputs, as the spec requires of `great_circle_distance`. -/
def distIndicator : (ℚ × ℚ) → (ℚ × ℚ) → ℚ := fun a b => if a = b then 0 else 1

/-- Location lookup used at the failing input: the position's own
coordinates. -/
def locSelf : Position → Option (ℚ × ℚ) := Position.location

/-- The failing input for C1: two distinct geocoded positions, one visit
each. -/
def psC1 : List Position := [⟨none, some (0, 0)⟩, ⟨none, some (1, 0)⟩]

/-- Embedding of `number_of_antennas(records)`: the number of distinct
positions among the records.  It is a plain count and yields `0`, not a
no-result value, on an empty sequence. -/
def number_of_antennas (records : List Record) : ℕ :=
  ((records.map Record.position).dedup).length

/-- The `while target > 0 and len(location_sort) > 0` loop of
`frequent_antennas`, acting on the visit counts in the order the keys are
popped (most-visited first); returns the number of keys removed. -/
def freqLoop : List ℕ → ℤ → ℕ
  | [], _ => 0
  | c :: rest, target => if 0 < target then freqLoop rest (target - c) + 1 else 0

/-- The distinct canonical keys of `frequent_antennas`, sorted ascending by
visit count exactly as the source does, then reversed into pop order
(most-visited first) and mapped to their counts.  `canon` models the
external canonical string form `str(position)` (spec §4.3; the `str`
conversion lives outside the repository's files). -/
def sortedCountsDesc (canon : Position → String) (positions : List Position) : List ℕ :=
  let strs := positions.map canon
  ((((strs.dedup).insertionSort (fun a b => strs.count a ≤ strs.count b)).reverse).map
    (fun k => strs.count k))

/-- Embedding of `frequent_antennas(positions, percentage=0.8)`: builds the
frequency mapping keyed by canonical strings, computes
`target = ceil(total_visits * percentage)`, then greedily removes
most-visited keys until the target is reached; returns the number of keys
removed.  On an empty sequence it returns `0`. -/
def frequent_antennas (canon : Position → String) (positions : List Position)
    (percentage : ℚ) : ℕ :=
  let strs := positions.map canon
  let total : ℕ := ((strs.dedup).map (fun k => strs.count k)).sum
  freqLoop (sortedCountsDesc canon positions) ⌈(total : ℚ) * percentage⌉

/-- Membership predicate for the least-cover characterisation: `k` prefixes
of the pop-order counts reach the target, or `k` exhausts all keys. -/
def coverProp (target : ℤ) (counts : List ℕ) (k : ℕ) : Prop :=
  target ≤ ((counts.take k).sum : ℤ) ∨ k = counts.length

instance coverPropDecidable (target : ℤ) (counts : List ℕ) :
    DecidablePred (coverProp target counts) := fun k => by
  unfold coverProp
  infer_instance

/-- The witness that some `k` satisfies `coverProp`: exhausting all keys
always does. -/
def coverProp_holds (target : ℤ) (counts : List ℕ) : ∃ k, coverProp target counts k :=
  ⟨counts.length, Or.inr rfl⟩

/-- The specification's reading of the greedy loop: the minimal number of
most-visited keys whose cumulative count reaches the target (all keys if
the target is never reached). -/
def leastCover (target : ℤ) (counts : List ℕ) : ℕ :=
  Nat.find (coverProp_holds target counts)

/-- The `Counter(...).values()` distribution: each distinct position of the
sequence, in order of first appearance, mapped to its number of occurrences. -/
def countsByPosition (ps : List Position) : List ℚ :=
  ps.dedup.map (fun p => (ps.count p : ℚ))

/-- The `call_duration` distribution of `spatial_diversity`: each distinct
position holding at least one call, in order of first appearance, mapped to
its total call duration (which may be zero). -/
def durationByPosition (records : List Record) : List ℚ :=
  (((records.filter (fun r => r.interaction = sCall)).map Record.position).dedup).map
    (fun p => (((records.filter (fun r => r.interaction = sCall ∧ r.position = p)).map
      Record.call_duration)).sum)

/-- The final guard of `spatial_diversity`: the distribution is kept only
when it has more than one category. -/
def normDist (l : List ℚ) : Option (List ℚ) :=
  if 1 < l.length then some l else none

/-- The message text of the `ValueError` raised by `spatial_diversity`. -/
def errSuffix : String := " is not a correct value of interaction"

/-- Embedding of `spatial_diversity(records, interaction)` up to (but not
including) the final real-valued `entropy(d) / log(len(d))`: the `Except`
layer models the `ValueError`, the outer `Option` the `None` results, and
the carried list is the distribution the entropy quotient is evaluated on. -/
def spatial_diversity_dist (records : List Record) (interaction : Option String) :
    Except String (Option (List ℚ)) :=
  if records.length ≤ 1 then Except.ok none
  else
    match interaction with
    | none => Except.ok (normDist (countsByPosition (records.map Record.position)))
    | some i =>
      if i = sCall ∨ i = sText then
        Except.ok (normDist (countsByPosition
          ((records.filter (fun r => r.interaction = i)).map Record.position)))
      else if i = sCallDuration then
        Except.ok (normDist (durationByPosition records))
      else Except.error (i ++ errSuffix)

/-- Modelled from the spec: Shannon entropy with natural logarithm of a
weight distribution (`helper.tools.entropy` is outside the repository's
files); zero-weight entries contribute nothing. -/
noncomputable def entropyVal (xs : List ℚ) : ℝ :=
  -((xs.map (fun x => if x = 0 then (0 : ℝ)
      else ((x / xs.sum : ℚ) : ℝ) * Real.log ((x / xs.sum : ℚ) : ℝ))).sum)

/-- The value `spatial_diversity` returns on a kept distribution:
`entropy(distribution) / ln(number of categories)`. -/
noncomputable def sdValue (xs : List ℚ) : ℝ :=
  entropyVal xs / Real.log (xs.length : ℝ)

/-- Embedding of the full `spatial_diversity`: the distribution layer with
the real-valued entropy quotient applied to a kept distribution. -/
noncomputable def spatial_diversity (records : List Record) (interaction : Option String) :
    Except String (Option ℝ) :=
  (spatial_diversity_dist records interaction).map (Option.map sdValue)

/-- Whether an `Except` value is an error. -/
def isErrorE {ε α : Type _} : Except ε α → Bool
  | Except.error _ => true
  | Except.ok _ => false

/-- The set of `interaction` arguments `spatial_diversity` accepts. -/
def validInteraction (i : Option String) : Bool :=
  (i == none) || (i == some sCall) || (i == some sText) || (i == some sCallDuration)

/-- The three outcomes an indicator call can signal in the module: a number,
the no-result value `None`, or the `NotImplemented` sentinel. -/
inductive IndicatorOutcome where
  | value : ℝ → IndicatorOutcome
  | noResult : IndicatorOutcome
  | notImplemented : IndicatorOutcome

/-- Embedding of `radius_of_movement(records)`: it returns the
`NotImplemented` sentinel for every input. -/
def radius_of_movement (_records : List Record) : IndicatorOutcome :=
  IndicatorOutcome.notImplemented

/-- The per-week dense frequency vector of `churn_rate`: for each position of
the universe, its visit count in the week divided by the week's total. -/
def freqVec (all : List Position) (week : List Position) : List ℚ :=
  all.map (fun p => (week.count p : ℚ) / (week.length : ℚ))

/-- Dot product of two frequency vectors, as the summed products of aligned
entries. -/
def dotQ (f1 f2 : List ℚ) : ℚ := (List.zipWith (fun a b => a * b) f1 f2).sum

/-- The cosine distance `1 − (f1·f2)/(‖f1‖·‖f2‖)` computed for one pair of
weekly vectors. -/
noncomputable def cosDistR (f1 f2 : List ℚ) : ℝ :=
  1 - ((dotQ f1 f2 : ℚ) : ℝ) /
    (Real.sqrt ((dotQ f1 f1 : ℚ) : ℝ) * Real.sqrt ((dotQ f2 f2 : ℚ) : ℝ))

/-- Modelled from the spec: `pairwise` over the weekly vectors, the
consecutive pairs in week order (`helper.tools.pairwise` is outside the
repository's files). -/
def pairwiseL {α : Type _} : List α → List (α × α)
  | a :: b :: rest => (a, b) :: pairwiseL (b :: rest)
  | _ => []

/-- Modelled from the spec: the external `statistics(values, summary)`
summariser in its default mode, the mean, with the empty sequence mapped to
the no-result value (`helper.group.statistics` is outside the repository's
files). -/
noncomputable def statisticsMean (xs : List ℝ) : Option ℝ :=
  if xs.length = 0 then none else some (xs.sum / (xs.length : ℝ))

/-- Embedding of `churn_rate(user)`: `None` on a user with no records;
otherwise the records are partitioned into weekly binned position lists by
`groupBin` — which models the external `group_records` + `_binning`
machinery (spec §4.5/§6; outside the repository's files) — and the mean of
the cosine distances between consecutive weekly frequency vectors is
returned. -/
noncomputable def churn_rate (groupBin : List Record → List (List Position))
    (records : List Record) : Option ℝ :=
  if records.length = 0 then none
  else
    let wps := groupBin records
    let all := wps.flatten.dedup
    let freqs := wps.map (freqVec all)
    statisticsMean ((pairwiseL freqs).map (fun fp => cosDistR fp.1 fp.2))

/-- A canonical-form function used by concrete instances: every position to
one fixed string. -/
def canonA : Position → String := fun _ => "a"

/-- A sample antenna-only position. -/
def pA : Position := ⟨some 1, none⟩

/-- A second sample antenna-only position. -/
def pB : Position := ⟨some 2, none⟩

/-- The percentage four fifths, the module's default, used at concrete
inputs. -/
def q45 : ℚ := 4 / 5

/-- The failing input for C4: two call records, one of duration zero at one
position, one of duration five at another. -/
def recsC4 : List Record := [⟨pA, sCall, 0⟩, ⟨pB, sCall, 5⟩]

/-- Two text records at distinct positions, used as a concrete input. -/
def recsText : List Record := [⟨pA, sText, 1⟩, ⟨pB, sText, 2⟩]

/-- An interaction string outside the accepted set. -/
def sBogus : String := "duration"

/-- A one-record list used as a concrete churn input. -/
def recsOne : List Record := [⟨pA, sCall, 1⟩]

/-- A grouping stand-in producing two identical one-visit weeks. -/
def groupBinTwo : List Record → List (List Position) := fun _ => [[pA], [pA]]

-- THEOREM_INSERT_POINT

/-- C3: `percent_at_home` returns `None` exactly when the user lacks a home or
the home has neither antenna id nor coordinates; otherwise it returns
`count(p == home) / total`, and exactly `0` (not `None`) on an empty sequence
with a home present. -/
theorem C3_percent_at_home_matches_spec (positions : List Position) (user : User) :
    percent_at_home positions user = percent_at_home_spec positions user := by
  unfold percent_at_home percent_at_home_spec
  rcases user with ⟨hh, home⟩
  cases hh with
  | false => simp
  | true =>
    by_cases ha : home.antenna = none ∧ home.location = none
    · simp [ha]
    · rw [not_and_or] at ha
      by_cases hp : positions = []
      · subst hp
        simp only [List.length_nil]
        rcases ha with ha | ha <;> simp [ha]
      · have hl : positions.length ≠ 0 := by
          simpa [List.length_eq_zero] using hp
        rcases ha with ha | ha <;> simp [ha, hl, hp]

/-- Summing a term twice over a list doubles the sum of the single terms. -/
lemma sum_map_double {α : Type _} (g : α → ℚ) (l : List α) :
    (l.map (fun p => g p + g p)).sum = 2 * (l.map g).sum := by
  induction l with
  | nil => simp
  | cons a t ih =>
    simp only [List.map_cons, List.sum_cons, ih]
    ring

/-- C1: the claim says the value under the square root is the singly-weighted
sum `Σ (count/total)·d(barycenter, position)²`.  The code adds every term
twice, so it returns the square root of twice that sum: on two equidistant
positions the claimed radicand is `1` while the code's is `2`, and
`sqrt 2 ≠ sqrt 1`. -/
theorem C1_radius_of_gyration_doubled :
    (∀ distF getLoc positions,
        rog_r distF getLoc positions =
          (rog_r_spec distF getLoc positions).map (fun x => 2 * x)) ∧
    rog_r distIndicator locSelf psC1 = some 2 ∧
    rog_r_spec distIndicator locSelf psC1 = some 1 ∧
    radius_of_gyration distIndicator locSelf psC1 = some (Real.sqrt 2) ∧
    Real.sqrt 2 ≠ Real.sqrt 1 := by
  have e1 : List.filterMap locSelf psC1 = [((0:ℚ),(0:ℚ)), ((1:ℚ),(0:ℚ))] := by rfl
  have e2 : ([((0:ℚ),(0:ℚ)), ((1:ℚ),(0:ℚ))]).dedup = [((0:ℚ),(0:ℚ)), ((1:ℚ),(0:ℚ))] := by rfl
  have c1 : (List.count ((0:ℚ),(0:ℚ)) [((0:ℚ),(0:ℚ)), ((1:ℚ),(0:ℚ))]) = 1 := by rfl
  have c2 : (List.count ((1:ℚ),(0:ℚ)) [((0:ℚ),(0:ℚ)), ((1:ℚ),(0:ℚ))]) = 1 := by rfl
  have h2 : rog_r distIndicator locSelf psC1 = some 2 := by
    unfold rog_r
    rw [e1]
    simp only [e2, c1, c2, List.map_cons, List.map_nil, List.sum_cons, List.sum_nil,
      List.length_cons, List.length_nil]
    norm_num [distIndicator, Prod.ext_iff]
  have h1 : rog_r_spec distIndicator locSelf psC1 = some 1 := by
    unfold rog_r_spec
    rw [e1]
    simp only [e2, c1, c2, List.map_cons, List.map_nil, List.sum_cons, List.sum_nil,
      List.length_cons, List.length_nil]
    norm_num [distIndicator, Prod.ext_iff]
  refine ⟨?_, h2, h1, ?_, ?_⟩
  · intro distF getLoc positions
    unfold rog_r rog_r_spec
    by_cases h : ((positions.filterMap getLoc).dedup).length = 0
    · simp [h]
    · simp only [h, if_false, Option.map_some]
      congr 1
      exact sum_map_double _ _
  · simp only [radius_of_gyration, h2, Option.map_some]
    norm_num
  · rw [Real.sqrt_one]
    intro h
    have h2 : (Real.sqrt 2) ^ 2 = 2 := Real.sq_sqrt (by norm_num)
    rw [h] at h2
    norm_num at h2

/-- C2 counterexample: on the empty sequence both `number_of_antennas` and
`frequent_antennas` return the number `0`, not the no-result value, so the
blanket policy of the claim fails for them. -/
theorem C2_empty_zero_counterexample :
    number_of_antennas [] = 0 ∧ frequent_antennas canonA [] q45 = 0 :=
  ⟨rfl, rfl⟩

/-- C2 amended: on an empty input, `radius_of_gyration` and
`spatial_diversity` do return the no-result value without raising, but
`number_of_antennas` and `frequent_antennas` return the number `0`. -/
theorem C2_empty_policy_amended (canon : Position → String) (percentage : ℚ)
    (distF : (ℚ × ℚ) → (ℚ × ℚ) → ℚ) (getLoc : Position → Option (ℚ × ℚ))
    (i : Option String) :
    number_of_antennas [] = 0 ∧ frequent_antennas canon [] percentage = 0 ∧
      rog_r distF getLoc [] = none ∧ spatial_diversity [] i = Except.ok none :=
  ⟨rfl, rfl, rfl, rfl⟩

/-- C9: `radius_of_movement` returns the `NotImplemented` sentinel on every
input, an outcome distinct from the no-result value, so a caller can always
tell "not implemented" from "no data". -/
theorem C9_radius_of_movement_sentinel (records : List Record) :
    radius_of_movement records = IndicatorOutcome.notImplemented ∧
      IndicatorOutcome.notImplemented ≠ IndicatorOutcome.noResult :=
  ⟨rfl, fun h => IndicatorOutcome.noConfusion h⟩

/-- C10: with at least two records and `interaction` equal to the call or
text type, if no record carries that interaction the restricted distribution
is empty, the fewer-than-two-categories guard fires, and `spatial_diversity`
returns the no-result value without raising. -/
theorem C10_spatial_diversity_empty_restriction (records : List Record) (i : String)
    (hlen : 2 ≤ records.length) (hi : i = sCall ∨ i = sText)
    (hnone : ∀ r ∈ records, r.interaction ≠ i) :
    spatial_diversity records (some i) = Except.ok none := by
  have hfilter : records.filter (fun r => r.interaction = i) = [] := by
    rw [List.filter_eq_nil_iff]
    intro r hr
    simpa using hnone r hr
  have h2 : ¬ records.length ≤ 1 := by omega
  unfold spatial_diversity spatial_diversity_dist
  simp [h2, hi, hfilter, countsByPosition, normDist]
  rfl

/-- Witness for C10 at a concrete input: two text records and the call
selector. -/
theorem C10_witness :
    2 ≤ recsText.length ∧ spatial_diversity recsText (some sCall) = Except.ok none :=
  ⟨by decide, C10_spatial_diversity_empty_restriction recsText sCall (by decide)
    (Or.inl rfl) (by decide)⟩

/-- C6 counterexample: with an empty record sequence and an `interaction`
value outside the accepted set, `spatial_diversity` returns the no-result
value instead of raising, because the length guard runs before the argument
check; so "raises if and only if the argument is invalid" fails. -/
theorem C6_short_circuit_counterexample :
    spatial_diversity [] (some sBogus) = Except.ok none ∧
      validInteraction (some sBogus) = false :=
  ⟨rfl, rfl⟩

/-- Mapping over the success value leaves error status unchanged. -/
lemma isErrorE_map {e a b : Type _} (f : a → b) (x : Except e a) :
    isErrorE (Except.map f x) = isErrorE x := by
  cases x <;> rfl

/-- An ok value is not an error. -/
lemma isErrorE_ok {e a : Type _} (x : a) : isErrorE (Except.ok x : Except e a) = false := rfl

/-- An error value is an error. -/
lemma isErrorE_error {e a : Type _} (m : e) : isErrorE (Except.error m : Except e a) = true := rfl

/-- C6 amended: `spatial_diversity` raises the invalid-argument error
exactly when the `interaction` argument is outside the accepted set and the
record sequence has at least two records; with zero or one records it
returns the no-result value before checking the argument, whatever that
argument is; and a valid argument never raises. -/
theorem C6_value_error_guard_amended (records : List Record) (i : Option String) :
    (isErrorE (spatial_diversity records i) = true ↔
      (validInteraction i = false ∧ 2 ≤ records.length)) ∧
    (records.length ≤ 1 → spatial_diversity records i = Except.ok none) ∧
    (validInteraction i = true → isErrorE (spatial_diversity records i) = false) := by
  by_cases hlen : records.length ≤ 1
  · have hok : spatial_diversity records i = Except.ok none := by
      unfold spatial_diversity spatial_diversity_dist
      simp only [hlen, if_true, ite_true]
      rfl
    refine ⟨?_, fun _ => hok, fun _ => by rw [hok, isErrorE_ok]⟩
    rw [hok, isErrorE_ok]
    constructor
    · intro h
      exact absurd h (by simp)
    · intro h
      exact absurd h.2 (by omega)
  · have hval : validInteraction i = true → isErrorE (spatial_diversity records i) = false := by
      intro hv
      cases i with
      | none =>
        unfold spatial_diversity spatial_diversity_dist
        simp [hlen, isErrorE_map, isErrorE_ok]
      | some s =>
        simp only [validInteraction, Bool.or_eq_true, beq_iff_eq, Option.some.injEq] at hv
        unfold spatial_diversity spatial_diversity_dist
        rcases hv with ((h0 | hc) | htx) | hcd
        · exact absurd h0 (by simp)
        · subst hc
          simp [hlen, isErrorE_map, isErrorE_ok]
        · subst htx
          simp [hlen, isErrorE_map, isErrorE_ok]
        · subst hcd
          have hio : ¬ (sCallDuration = sCall ∨ sCallDuration = sText) := by decide
          simp [hlen, hio, isErrorE_map, isErrorE_ok]
    have hinv : validInteraction i = false → isErrorE (spatial_diversity records i) = true := by
      intro hv
      cases i with
      | none => simp [validInteraction] at hv
      | some s =>
        simp only [validInteraction, Bool.or_eq_false_iff, beq_eq_false_iff_ne, ne_eq,
          Option.some.injEq] at hv
        have hnc : ¬ (s = sCall ∨ s = sText) := by
          rw [not_or]
          exact ⟨hv.1.1.2, hv.1.2⟩
        unfold spatial_diversity spatial_diversity_dist
        simp [hlen, hnc, hv.2, isErrorE_map, isErrorE_error]
    refine ⟨?_, fun hl => absurd hl (by omega), hval⟩
    cases hvb : validInteraction i with
    | true =>
      refine ⟨fun h => ?_, fun h => ?_⟩
      · rw [hval hvb] at h
        exact absurd h (by simp)
      · exact absurd h.1 (by simp)
    | false =>
      exact ⟨fun _ => ⟨rfl, by omega⟩, fun _ => hinv hvb⟩

/-- Witness for C6 at a concrete input: a one-record list with an invalid
interaction string returns the no-result value without raising. -/
theorem C6_witness :
    spatial_diversity recsOne (some sBogus) = Except.ok none :=
  (C6_value_error_guard_amended recsOne (some sBogus)).2.1 (by decide)

/-- The call-duration distribution at the C4 failing input evaluates to the
two sums zero and five. -/
lemma durationByPosition_recsC4 : durationByPosition recsC4 = [0, 5] := by
  have hd : (((recsC4.filter (fun r => r.interaction = sCall)).map Record.position).dedup)
      = [pA, pB] := by rfl
  unfold durationByPosition
  rw [hd]
  have fA : recsC4.filter (fun r => r.interaction = sCall ∧ r.position = pA)
      = [⟨pA, sCall, 0⟩] := by rfl
  have fB : recsC4.filter (fun r => r.interaction = sCall ∧ r.position = pB)
      = [⟨pB, sCall, 5⟩] := by rfl
  simp only [List.map_cons, List.map_nil, fA, fB, List.sum_cons, List.sum_nil]
  norm_num

/-- C4 counterexample: on one zero-duration call and one five-duration call
at two positions, the distribution kept by the code is `[0, 5]` — it is not
replaced by the no-result value although only one category is non-zero, so
zero-sum positions do count toward the fewer-than-2 test. -/
theorem C4_zero_duration_counterexample :
    spatial_diversity_dist recsC4 (some sCallDuration) = Except.ok (some [0, 5]) ∧
      (([0, 5] : List ℚ).filter (fun x => x ≠ 0)).length < 2 := by
  constructor
  · have hlen : ¬ recsC4.length ≤ 1 := by decide
    unfold spatial_diversity_dist
    have hio : ¬ (sCallDuration = sCall ∨ sCallDuration = sText) := by decide
    simp [hlen, hio, durationByPosition_recsC4, normDist]
  · decide

/-- Mapping the entropy quotient over a kept distribution is the no-result
value exactly when the distribution itself was dropped. -/
lemma mapOk_eq_ok_none (f : List ℚ → ℝ) (o : Option (List ℚ)) :
    Except.map (Option.map f) (Except.ok o : Except String (Option (List ℚ)))
      = Except.ok none ↔ o = none := by
  cases o <;> simp [Except.map]

/-- The guard keeps nothing exactly on distributions of at most one
category. -/
lemma normDist_eq_none (l : List ℚ) : normDist l = none ↔ l.length ≤ 1 := by
  unfold normDist
  by_cases h : 1 < l.length
  · simp only [h, if_true, ite_true]
    constructor
    · intro hx
      exact absurd hx (by simp)
    · intro hx
      exact absurd hx (by omega)
  · simp only [h, if_false, ite_false]
    constructor
    · intro _
      omega
    · intro _
      trivial

/-- C4 amended: for at least two records, `spatial_diversity` with the
call-duration weighting returns the no-result value exactly when fewer than
two distinct positions appear among call records — a position whose summed
call duration is zero still counts as a category. -/
theorem C4_call_duration_categories_amended (records : List Record)
    (hlen : 2 ≤ records.length) :
    spatial_diversity records (some sCallDuration) = Except.ok none ↔
      (((records.filter (fun r => r.interaction = sCall)).map Record.position).dedup).length
        ≤ 1 := by
  have h1 : ¬ records.length ≤ 1 := by omega
  have hio : ¬ (sCallDuration = sCall ∨ sCallDuration = sText) := by decide
  have hlen2 : (durationByPosition records).length =
      (((records.filter (fun r => r.interaction = sCall)).map Record.position).dedup).length := by
    unfold durationByPosition
    exact List.length_map _ _
  unfold spatial_diversity spatial_diversity_dist
  simp only [h1, hio, if_false, ite_false, eq_self_iff_true, if_true, ite_true]
  rw [mapOk_eq_ok_none, normDist_eq_none, hlen2]

/-- Witness for the amended C4 at a concrete input: two call records at two
positions, so neither side of the equivalence holds. -/
theorem C4_witness :
    spatial_diversity recsC4 (some sCallDuration) = Except.ok none ↔
      (((recsC4.filter (fun r => r.interaction = sCall)).map Record.position).dedup).length
        ≤ 1 :=
  C4_call_duration_categories_amended recsC4 (by decide)

/-- The greedy removal loop computes the least `k` for which the first `k`
pop-order counts reach the target (or all keys are exhausted). -/
lemma freqLoop_eq_leastCover : ∀ (counts : List ℕ) (target : ℤ),
    freqLoop counts target = leastCover target counts := by
  intro counts
  induction counts with
  | nil =>
    intro target
    have h0 : freqLoop [] target = 0 := rfl
    rw [h0]
    symm
    rw [leastCover, Nat.find_eq_zero]
    exact Or.inr rfl
  | cons c rest ih =>
    intro target
    by_cases ht : 0 < target
    · have hstep : freqLoop (c :: rest) target = freqLoop rest (target - c) + 1 := by
        simp [freqLoop, ht]
      rw [hstep, ih (target - c)]
      unfold leastCover
      symm
      rw [Nat.find_eq_iff]
      constructor
      · have hspec := Nat.find_spec (coverProp_holds (target - c) rest)
        unfold coverProp at hspec ⊢
        rcases hspec with hs | hl
        · left
          rw [List.take_succ_cons, List.sum_cons]
          push_cast
          push_cast at hs
          omega
        · right
          rw [hl]
          simp [List.length_cons]
      · intro n hn
        unfold coverProp
        cases n with
        | zero =>
          rw [not_or]
          constructor
          · simp only [List.take_zero, List.sum_nil, Nat.cast_zero]
            omega
          · simp [List.length_cons]
        | succ j =>
          have hj : j < Nat.find (coverProp_holds (target - c) rest) := by omega
          have hmin := Nat.find_min (coverProp_holds (target - c) rest) hj
          unfold coverProp at hmin
          rw [not_or] at hmin ⊢
          constructor
          · rw [List.take_succ_cons, List.sum_cons]
            push_cast
            have h1 := hmin.1
            push_cast at h1
            omega
          · intro hlen
            exact hmin.2 (by simpa [List.length_cons] using hlen)
    · have hstep : freqLoop (c :: rest) target = 0 := by
        simp [freqLoop, ht]
      rw [hstep]
      symm
      rw [leastCover, Nat.find_eq_zero]
      left
      simp only [List.take_zero, List.sum_nil, Nat.cast_zero]
      omega

/-- The pop-order counts are a permutation of the per-key counts over the
distinct canonical keys. -/
lemma sortedCountsDesc_perm (canon : Position → String) (positions : List Position) :
    (sortedCountsDesc canon positions).Perm
      (((positions.map canon).dedup).map (fun k => (positions.map canon).count k)) := by
  unfold sortedCountsDesc
  exact List.Perm.map _ ((List.reverse_perm _).trans (List.perm_insertionSort _ _))

/-- The pop-order counts are sorted most-visited first. -/
lemma sortedCountsDesc_sorted (canon : Position → String) (positions : List Position) :
    (sortedCountsDesc canon positions).Sorted (fun a b => a ≥ b) := by
  unfold sortedCountsDesc
  haveI h1 : IsTotal String
      (fun a b => (positions.map canon).count a ≤ (positions.map canon).count b) :=
    ⟨fun a b => Nat.le_total _ _⟩
  haveI h2 : IsTrans String
      (fun a b => (positions.map canon).count a ≤ (positions.map canon).count b) :=
    ⟨fun a b c hab hbc => Nat.le_trans hab hbc⟩
  have hs := List.sorted_insertionSort
    (fun a b => (positions.map canon).count a ≤ (positions.map canon).count b)
    ((positions.map canon).dedup)
  have hrev := List.pairwise_reverse.mpr hs
  exact List.Pairwise.map _ (fun a b hab => hab) hrev

/-- C5: `frequent_antennas` equals the least number of most-visited keys
whose cumulative count reaches `ceil(total_visits * percentage)` — with the
counts it removes sorted most-visited first and forming exactly the per-key
visit counts of the canonical-string frequency mapping. -/
theorem C5_frequent_antennas_least_cover (canon : Position → String)
    (positions : List Position) (percentage : ℚ) :
    frequent_antennas canon positions percentage =
        leastCover ⌈((positions.map canon).length : ℚ) * percentage⌉
          (sortedCountsDesc canon positions) ∧
      (sortedCountsDesc canon positions).Sorted (fun a b => a ≥ b) ∧
      (sortedCountsDesc canon positions).Perm
        (((positions.map canon).dedup).map (fun k => (positions.map canon).count k)) := by
  refine ⟨?_, sortedCountsDesc_sorted canon positions, sortedCountsDesc_perm canon positions⟩
  simp only [frequent_antennas]
  rw [List.sum_map_count_dedup_eq_length]
  exact freqLoop_eq_leastCover _ _

/-- When every count is positive and the target equals the total, the greedy
loop removes every key. -/
lemma freqLoop_all : ∀ (counts : List ℕ), (∀ c ∈ counts, 0 < c) →
    ∀ t : ℤ, t = (counts.sum : ℤ) → 0 < t → freqLoop counts t = counts.length := by
  intro counts
  induction counts with
  | nil =>
    intro _ t ht htpos
    rw [ht] at htpos
    simp at htpos
  | cons c rest ih =>
    intro hpos t ht htpos
    have hstep : freqLoop (c :: rest) t = freqLoop rest (t - c) + 1 := by
      simp [freqLoop, htpos]
    rw [hstep]
    by_cases hrest : rest = []
    · subst hrest
      simp [freqLoop]
    · have hsum : t - c = (rest.sum : ℤ) := by
        rw [ht, List.sum_cons]
        push_cast
        ring
      have hpos' : ∀ x ∈ rest, 0 < x := fun x hx => hpos x (List.mem_cons_of_mem _ hx)
      have hspos : 0 < t - c := by
        rw [hsum]
        rcases rest with _ | ⟨r0, rs⟩
        · exact absurd rfl hrest
        · have hr0 : 0 < r0 := hpos' r0 (List.mem_cons_self _ _)
          have hq : 0 < (r0 :: rs).sum := by
            rw [List.sum_cons]
            omega
          exact_mod_cast hq
      rw [ih hpos' (t - c) hsum hspos]
      simp [List.length_cons]

/-- C8: with any distribution of visits over `N` distinct canonical keys and
`percentage = 1`, every key must be removed, so `frequent_antennas` returns
`N`. -/
theorem C8_frequent_antennas_full_coverage (canon : Position → String)
    (positions : List Position) (h : positions ≠ []) :
    frequent_antennas canon positions 1 = ((positions.map canon).dedup).length := by
  have hperm := sortedCountsDesc_perm canon positions
  have hlen : (sortedCountsDesc canon positions).length
      = ((positions.map canon).dedup).length := by
    rw [hperm.length_eq, List.length_map]
  have hsum : (sortedCountsDesc canon positions).sum = (positions.map canon).length := by
    rw [hperm.sum_eq, List.sum_map_count_dedup_eq_length]
  have hpos : ∀ c ∈ sortedCountsDesc canon positions, 0 < c := by
    intro c hc
    have hc' := hperm.mem_iff.mp hc
    rcases List.mem_map.mp hc' with ⟨k, hk, rfl⟩
    have hmem : k ∈ positions.map canon := List.mem_dedup.mp hk
    exact List.count_pos_iff.mpr hmem
  have hplen : 0 < (positions.map canon).length := by
    rcases positions with _ | _
    · exact absurd rfl h
    · simp
  simp only [frequent_antennas]
  rw [List.sum_map_count_dedup_eq_length, mul_one, Int.ceil_natCast]
  rw [freqLoop_all (sortedCountsDesc canon positions) hpos _ (by exact_mod_cast hsum.symm)
    (by exact_mod_cast hplen), hlen]

/-- Witness for C8 at a concrete input: one position, one distinct key. -/
theorem C8_witness :
    ([pA] : List Position) ≠ [] ∧
      frequent_antennas canonA [pA] 1 = (([pA].map canonA).dedup).length :=
  ⟨by decide, C8_frequent_antennas_full_coverage canonA [pA] (by decide)⟩

/-- Both members of a consecutive pair belong to the original list. -/
lemma pairwiseL_mem {α : Type _} : ∀ (l : List α) (p : α × α),
    p ∈ pairwiseL l → p.1 ∈ l ∧ p.2 ∈ l
  | [], p, h => by simp [pairwiseL] at h
  | [a], p, h => by simp [pairwiseL] at h
  | a :: b :: rest, p, h => by
    rw [show pairwiseL (a :: b :: rest) = (a, b) :: pairwiseL (b :: rest) from rfl] at h
    rcases List.mem_cons.mp h with rfl | h2
    · exact ⟨List.mem_cons_self _ _, List.mem_cons_of_mem _ (List.mem_cons_self _ _)⟩
    · have hrec := pairwiseL_mem (b :: rest) p h2
      exact ⟨List.mem_cons_of_mem _ hrec.1, List.mem_cons_of_mem _ hrec.2⟩

/-- A list with at least two elements has at least one consecutive pair. -/
lemma pairwiseL_ne_nil {α : Type _} (l : List α) (h : 2 ≤ l.length) :
    pairwiseL l ≠ [] := by
  rcases l with _ | ⟨a, _ | ⟨b, rest⟩⟩
  · simp at h
  · simp at h
  · simp [pairwiseL]

/-- A sum of nonnegative rationals with a positive member is positive. -/
lemma sum_pos_of_mem_pos : ∀ (l : List ℚ), (∀ y ∈ l, 0 ≤ y) →
    ∀ x, x ∈ l → 0 < x → 0 < l.sum := by
  intro l
  induction l with
  | nil =>
    intro _ x hx
    simp at hx
  | cons a t ih =>
    intro hnn x hx hxpos
    rw [List.sum_cons]
    rcases List.mem_cons.mp hx with rfl | hxt
    · have ht : 0 ≤ t.sum := List.sum_nonneg (fun y hy => hnn y (List.mem_cons_of_mem _ hy))
      linarith
    · have ha : 0 ≤ a := hnn a (List.mem_cons_self _ _)
      have hts := ih (fun y hy => hnn y (List.mem_cons_of_mem _ hy)) x hxt hxpos
      linarith

/-- The squared norm of the frequency vector of a non-empty week whose
positions all appear in the universe is positive. -/
lemma dotQ_self_freqVec_pos (all : List Position) (w : List Position) (hw : w ≠ [])
    (hsub : ∀ p ∈ w, p ∈ all) : 0 < dotQ (freqVec all w) (freqVec all w) := by
  unfold dotQ
  rw [List.zipWith_same]
  have hnn : ∀ x ∈ (freqVec all w).map (fun x => x * x), 0 ≤ x := by
    intro x hx
    rcases List.mem_map.mp hx with ⟨y, _, rfl⟩
    exact mul_self_nonneg y
  rcases List.exists_mem_of_ne_nil w hw with ⟨p, hp⟩
  have hpall := hsub p hp
  have hentry : ((w.count p : ℚ) / (w.length : ℚ)) ∈ freqVec all w :=
    List.mem_map_of_mem _ hpall
  have hcount : 0 < w.count p := List.count_pos_iff.mpr hp
  have hwlen : 0 < w.length := List.length_pos.mpr hw
  have hqpos : 0 < (w.count p : ℚ) / (w.length : ℚ) :=
    div_pos (by exact_mod_cast hcount) (by exact_mod_cast hwlen)
  exact sum_pos_of_mem_pos _ hnn _ (List.mem_map_of_mem _ hentry) (mul_pos hqpos hqpos)

/-- The cosine distance between a frequency vector of positive squared norm
and itself is zero. -/
lemma cosDistR_self (f : List ℚ) (h : 0 < dotQ f f) : cosDistR f f = 0 := by
  unfold cosDistR
  have hpos : (0:ℝ) < ((dotQ f f : ℚ) : ℝ) := by exact_mod_cast h
  rw [Real.mul_self_sqrt (le_of_lt hpos), div_self (ne_of_gt hpos)]
  ring

/-- The mean of a non-empty list of zeros is zero. -/
lemma statisticsMean_zero (xs : List ℝ) (hz : ∀ x ∈ xs, x = 0) (hne : xs ≠ []) :
    statisticsMean xs = some 0 := by
  unfold statisticsMean
  have hlen : ¬ xs.length = 0 := by simpa [List.length_eq_zero] using hne
  simp only [hlen, if_false, ite_false]
  rw [List.sum_eq_zero hz, zero_div]

/-- C7: on a user with records whose weekly binned position lists are all
non-empty and share one frequency distribution over the position universe,
every consecutive cosine distance is zero and `churn_rate` under the default
summary returns 0. -/
theorem C7_churn_rate_identical_weeks (groupBin : List Record → List (List Position))
    (records : List Record) (hrec : records ≠ [])
    (hweeks : 2 ≤ (groupBin records).length)
    (hne : ∀ w ∈ groupBin records, w ≠ [])
    (heq : ∀ w1 ∈ groupBin records, ∀ w2 ∈ groupBin records,
      freqVec ((groupBin records).flatten.dedup) w1
        = freqVec ((groupBin records).flatten.dedup) w2) :
    churn_rate groupBin records = some 0 := by
  unfold churn_rate
  have hlen0 : ¬ records.length = 0 := by simpa [List.length_eq_zero] using hrec
  simp only [hlen0, if_false, ite_false]
  have hzero : ∀ x ∈ (pairwiseL ((groupBin records).map
      (freqVec ((groupBin records).flatten.dedup)))).map
        (fun fp => cosDistR fp.1 fp.2), x = 0 := by
    intro x hx
    rcases List.mem_map.mp hx with ⟨⟨f1, f2⟩, hmem, rfl⟩
    have hm := pairwiseL_mem _ (f1, f2) hmem
    rcases List.mem_map.mp hm.1 with ⟨w1, hw1, he1⟩
    rcases List.mem_map.mp hm.2 with ⟨w2, hw2, he2⟩
    dsimp only at he1 he2 ⊢
    have hf12 : f1 = f2 := by
      rw [← he1, ← he2]
      exact heq w1 hw1 w2 hw2
    have hpos : 0 < dotQ f1 f1 := by
      rw [← he1]
      refine dotQ_self_freqVec_pos _ w1 (hne w1 hw1) ?_
      intro p hp
      exact List.mem_dedup.mpr (List.mem_flatten.mpr ⟨w1, hw1, hp⟩)
    rw [← hf12]
    exact cosDistR_self f1 hpos
  refine statisticsMean_zero _ hzero ?_
  have hp2 : pairwiseL ((groupBin records).map
      (freqVec ((groupBin records).flatten.dedup))) ≠ [] := by
    refine pairwiseL_ne_nil _ ?_
    rw [List.length_map]
    exact hweeks
  intro hmapnil
  exact hp2 (List.map_eq_nil_iff.mp hmapnil)

/-- Witness for C7 at a concrete input: one record grouped into two
identical one-visit weeks. -/
theorem C7_witness : churn_rate groupBinTwo recsOne = some 0 := by
  refine C7_churn_rate_identical_weeks groupBinTwo recsOne (by decide) (by decide)
    (by decide) ?_
  intro w1 h1 w2 h2
  have e1 : w1 = [pA] := by simpa [groupBinTwo] using h1
  have e2 : w2 = [pA] := by simpa [groupBinTwo] using h2
  rw [e1, e2]
